import Mathlib

/-
Verification of the fractional_int library (src/lib.rs): fixed-point
fractional unsigned integers of widths 8 and 16 with saturating
arithmetic, bitwise inversion, cross-width conversion, and IEEE-754
float conversions.

Machine integers are modelled as naturals with explicit wrap (mod 2^w)
at the points where the source performs wrapping arithmetic; the u8
and u16 invariants (raw ≤ 255, raw ≤ 65535) appear as hypotheses.

IEEE-754 binary32/binary64 arithmetic is modelled exactly over ℚ:
a finite float is a rational fixed by round-to-nearest-even at the
format's precision (24 or 53 bits, with gradual underflow and overflow
to infinity), and each float operation of the source rounds the exact
rational result, as IEEE 754 prescribes for multiplication, division
and casts.
-/

set_option maxRecDepth 10000
set_option maxHeartbeats 2000000
set_option exponentiation.threshold 2000

attribute [local semireducible] Rat.mul Rat.inv Rat.add Rat.sub Rat.ofScientific

/-! ### Dyadic preliminaries over ℚ -/

/-- Absolute value on ℚ, written as a conditional so that kernel reduction
inside decidability checks works. -/
def qabs (q : ℚ) : ℚ := if q < 0 then -q else q

theorem qabs_eq_abs (q : ℚ) : qabs q = |q| := by
  unfold qabs
  rcases lt_or_ge q 0 with h | h
  · rw [if_pos h, abs_of_neg h]
  · rw [if_neg (not_lt.mpr h), abs_of_nonneg h]

/-- Integer powers of two in ℚ, computable by kernel reduction. -/
def pow2 : ℤ → ℚ
  | Int.ofNat n => ((2 ^ n : ℕ) : ℚ)
  | Int.negSucc n => 1 / ((2 ^ (n + 1) : ℕ) : ℚ)

theorem pow2_eq_zpow (e : ℤ) : pow2 e = (2 : ℚ) ^ e := by
  cases e with
  | ofNat n =>
    show ((2 ^ n : ℕ) : ℚ) = (2 : ℚ) ^ (n : ℤ)
    rw [zpow_natCast]
    push_cast
    ring
  | negSucc n =>
    show 1 / ((2 ^ (n + 1) : ℕ) : ℚ) = (2 : ℚ) ^ (Int.negSucc n)
    rw [zpow_negSucc, one_div]
    push_cast
    ring_nf

theorem two_zpow_pos (e : ℤ) : (0 : ℚ) < 2 ^ e :=
  zpow_pos (by norm_num) e

/-- Fuel-driven floor of the base-2 logarithm (structural recursion, so that
the kernel can evaluate it inside decidability checks). -/
def log2Aux : ℕ → ℕ → ℕ
  | 0, _ => 0
  | fuel + 1, n => if 2 ≤ n then log2Aux fuel (n / 2) + 1 else 0

/-- Floor of the base-2 logarithm of a positive natural number. -/
def log2N (n : ℕ) : ℕ := log2Aux n n

theorem log2Aux_correct : ∀ fuel n, 1 ≤ n → n ≤ fuel →
    2 ^ log2Aux fuel n ≤ n ∧ n < 2 ^ (log2Aux fuel n + 1) := by
  intro fuel
  induction fuel with
  | zero => intro n h1 h2; omega
  | succ fuel ih =>
    intro n h1 h2
    by_cases h : 2 ≤ n
    · have hm1 : 1 ≤ n / 2 := by omega
      have hm2 : n / 2 ≤ fuel := by omega
      have hih := ih (n / 2) hm1 hm2
      simp only [log2Aux, if_pos h]
      constructor
      · have hp : 2 ^ (log2Aux fuel (n / 2) + 1) = 2 * 2 ^ log2Aux fuel (n / 2) := by ring
        omega
      · have hp : 2 ^ (log2Aux fuel (n / 2) + 1 + 1) = 2 * 2 ^ (log2Aux fuel (n / 2) + 1) := by
          ring
        omega
    · simp only [log2Aux, if_neg h]
      omega

theorem log2N_correct (n : ℕ) (h : 1 ≤ n) :
    2 ^ log2N n ≤ n ∧ n < 2 ^ (log2N n + 1) :=
  log2Aux_correct n n h le_rfl

/-- Floor of the base-2 logarithm of the absolute value of a nonzero rational. -/
def ratFloorLog2 (q : ℚ) : ℤ :=
  if pow2 ((log2N q.num.natAbs : ℤ) - (log2N q.den : ℤ)) ≤ qabs q
  then (log2N q.num.natAbs : ℤ) - (log2N q.den : ℤ)
  else (log2N q.num.natAbs : ℤ) - (log2N q.den : ℤ) - 1

theorem ratFloorLog2_correct (q : ℚ) (hq : q ≠ 0) :
    (2 : ℚ) ^ ratFloorLog2 q ≤ |q| ∧ |q| < 2 ^ (ratFloorLog2 q + 1) := by
  have hnum : q.num ≠ 0 := Rat.num_ne_zero.mpr hq
  have hn1 : 1 ≤ q.num.natAbs := Nat.one_le_iff_ne_zero.mpr (Int.natAbs_ne_zero.mpr hnum)
  have hd1 : 1 ≤ q.den := q.den_pos
  obtain ⟨han1, han2⟩ := log2N_correct _ hn1
  obtain ⟨hbn1, hbn2⟩ := log2N_correct _ hd1
  set a := log2N q.num.natAbs with ha
  set b := log2N q.den with hb
  set n := q.num.natAbs with hn
  set d := q.den with hd
  have hdpos : (0 : ℚ) < (d : ℚ) := by exact_mod_cast hd1
  have hnpos : (0 : ℚ) < (n : ℚ) := by exact_mod_cast hn1
  have habs : |q| = (n : ℚ) / (d : ℚ) := by
    rw [← Rat.num_div_den q, abs_div]
    congr 1
    · rw [Int.cast_natAbs, Int.cast_abs]
    · rw [abs_of_pos hdpos]
  have hcast : ∀ k : ℕ, (2 : ℚ) ^ (k : ℤ) = ((2 ^ k : ℕ) : ℚ) := by
    intro k
    rw [zpow_natCast]
    push_cast
    ring
  have hA1 : (2 : ℚ) ^ (a : ℤ) ≤ (n : ℚ) := by
    rw [hcast]
    exact_mod_cast han1
  have hA2 : (n : ℚ) < (2 : ℚ) ^ ((a : ℤ) + 1) := by
    have : ((a : ℤ) + 1) = ((a + 1 : ℕ) : ℤ) := by push_cast; ring
    rw [this, hcast]
    exact_mod_cast han2
  have hB1 : (2 : ℚ) ^ (b : ℤ) ≤ (d : ℚ) := by
    rw [hcast]
    exact_mod_cast hbn1
  have hB2 : (d : ℚ) < (2 : ℚ) ^ ((b : ℤ) + 1) := by
    have : ((b : ℤ) + 1) = ((b + 1 : ℕ) : ℤ) := by push_cast; ring
    rw [this, hcast]
    exact_mod_cast hbn2
  have hBpos : (0 : ℚ) < (2 : ℚ) ^ ((b : ℤ) + 1) := two_zpow_pos _
  have hbpos : (0 : ℚ) < (2 : ℚ) ^ (b : ℤ) := two_zpow_pos _
  -- strict lower bound 2^(a-b-1) < |q|
  have hlow : (2 : ℚ) ^ ((a : ℤ) - b - 1) < |q| := by
    rw [habs]
    have he : (2 : ℚ) ^ ((a : ℤ) - b - 1) = (2 : ℚ) ^ (a : ℤ) / (2 : ℚ) ^ ((b : ℤ) + 1) := by
      rw [← zpow_sub₀ (by norm_num : (2 : ℚ) ≠ 0)]
      congr 1
      ring
    rw [he]
    calc (2 : ℚ) ^ (a : ℤ) / (2 : ℚ) ^ ((b : ℤ) + 1)
        ≤ (n : ℚ) / (2 : ℚ) ^ ((b : ℤ) + 1) := (div_le_div_right hBpos).mpr hA1
      _ < (n : ℚ) / (d : ℚ) := (div_lt_div_left hnpos hBpos hdpos).mpr hB2
  -- strict upper bound |q| < 2^(a-b+1)
  have hupp : |q| < (2 : ℚ) ^ ((a : ℤ) - b + 1) := by
    rw [habs]
    have he : (2 : ℚ) ^ ((a : ℤ) - b + 1) = (2 : ℚ) ^ ((a : ℤ) + 1) / (2 : ℚ) ^ (b : ℤ) := by
      rw [← zpow_sub₀ (by norm_num : (2 : ℚ) ≠ 0)]
      congr 1
      ring
    rw [he]
    calc (n : ℚ) / (d : ℚ)
        < (2 : ℚ) ^ ((a : ℤ) + 1) / (d : ℚ) := (div_lt_div_right hdpos).mpr hA2
      _ ≤ (2 : ℚ) ^ ((a : ℤ) + 1) / (2 : ℚ) ^ (b : ℤ) :=
          (div_le_div_left (two_zpow_pos _) hdpos hbpos).mpr hB1
  unfold ratFloorLog2
  rw [pow2_eq_zpow, qabs_eq_abs, ← hn, ← hd, ← ha, ← hb]
  by_cases hif : (2 : ℚ) ^ ((a : ℤ) - b) ≤ |q|
  · rw [if_pos hif]
    refine ⟨hif, ?_⟩
    have : (a : ℤ) - b + 1 = ((a : ℤ) - b) + 1 := by ring
    rw [← this]
    exact hupp
  · rw [if_neg hif]
    constructor
    · have : (a : ℤ) - b - 1 + 1 - 1 = (a : ℤ) - b - 1 := by ring
      exact le_of_lt hlow
    · have he : (a : ℤ) - b - 1 + 1 = (a : ℤ) - b := by ring
      rw [he]
      exact lt_of_not_ge hif

theorem ratFloorLog2_unique (q : ℚ) (hq : q ≠ 0) (e : ℤ)
    (h1 : (2 : ℚ) ^ e ≤ |q|) (h2 : |q| < 2 ^ (e + 1)) : ratFloorLog2 q = e := by
  obtain ⟨hc1, hc2⟩ := ratFloorLog2_correct q hq
  by_contra hne
  rcases lt_or_gt_of_ne hne with h | h
  · have hle : ratFloorLog2 q + 1 ≤ e := by omega
    have : (2 : ℚ) ^ (ratFloorLog2 q + 1) ≤ 2 ^ e :=
      zpow_le_zpow_right₀ (by norm_num) hle
    linarith
  · have hle : e + 1 ≤ ratFloorLog2 q := by omega
    have : (2 : ℚ) ^ (e + 1) ≤ 2 ^ ratFloorLog2 q :=
      zpow_le_zpow_right₀ (by norm_num) hle
    linarith

/-! ### Round to nearest, ties to even -/

/-- Round a rational to the nearest integer, ties going to the even integer. -/
def rne (x : ℚ) : ℤ :=
  if x - (⌊x⌋ : ℚ) < 1 / 2 then ⌊x⌋
  else if 1 / 2 < x - (⌊x⌋ : ℚ) then ⌊x⌋ + 1
  else if ⌊x⌋ % 2 = 0 then ⌊x⌋ else ⌊x⌋ + 1

theorem rne_mem (x : ℚ) : rne x = ⌊x⌋ ∨ rne x = ⌊x⌋ + 1 := by
  unfold rne
  split_ifs <;> simp

theorem rne_intCast (m : ℤ) : rne (m : ℚ) = m := by
  unfold rne
  rw [Int.floor_intCast]
  norm_num

theorem le_rne (x : ℚ) : x - 1 / 2 ≤ (rne x : ℚ) := by
  unfold rne
  have hf : (⌊x⌋ : ℚ) ≤ x := Int.floor_le x
  have hf2 : x < (⌊x⌋ : ℚ) + 1 := Int.lt_floor_add_one x
  split_ifs with h1 h2 h3
  · linarith
  · push_cast
    linarith
  · linarith [le_of_not_lt h1]
  · push_cast
    linarith [le_of_not_lt h1]

theorem rne_le (x : ℚ) : (rne x : ℚ) ≤ x + 1 / 2 := by
  unfold rne
  have hf : (⌊x⌋ : ℚ) ≤ x := Int.floor_le x
  have hf2 : x < (⌊x⌋ : ℚ) + 1 := Int.lt_floor_add_one x
  split_ifs with h1 h2 h3
  · linarith
  · push_cast
    linarith
  · linarith
  · push_cast
    linarith [le_of_not_lt h1, le_of_not_lt h2]

theorem rne_nonpos (x : ℚ) (hx : x < 0) : rne x ≤ 0 := by
  have hfl : ⌊x⌋ < 0 := by
    rw [Int.floor_lt]
    exact lt_of_lt_of_le hx (by norm_num)
  rcases rne_mem x with h | h <;> omega

theorem rne_nonneg (x : ℚ) (hx : 0 ≤ x) : 0 ≤ rne x := by
  have hfl : 0 ≤ ⌊x⌋ := Int.floor_nonneg.mpr hx
  rcases rne_mem x with h | h <;> omega

/-! ### IEEE-754 binary formats and round-to-nearest-even -/

/-- An IEEE-754 binary format: precision in bits, the exponent of the least
significant bit of subnormals, and the exponent of the least significant bit
at the maximum finite exponent. -/
structure FloatFmt where
  prec : ℕ
  eminLSB : ℤ
  emaxLSB : ℤ

/-- The binary32 format (Rust f32): 24 bits of precision, subnormal LSB
exponent -149 = -126 - 23, top LSB exponent 104 = 127 - 23. -/
def fmt32 : FloatFmt := ⟨24, -149, 104⟩

/-- The binary64 format (Rust f64): 53 bits of precision, subnormal LSB
exponent -1074 = -1022 - 52, top LSB exponent 971 = 1023 - 52. -/
def fmt64 : FloatFmt := ⟨53, -1074, 971⟩

/-- Largest finite value of the format. -/
def FloatFmt.maxFin (fmt : FloatFmt) : ℚ := ((2 ^ fmt.prec - 1 : ℕ) : ℚ) * pow2 fmt.emaxLSB

/-- Exponent of the least significant mantissa bit used when rounding q:
the normalized scale, pushed up to the subnormal scale when below it. -/
def roundScale (fmt : FloatFmt) (q : ℚ) : ℤ :=
  max (ratFloorLog2 q - ((fmt.prec : ℤ) - 1)) fmt.eminLSB

/-- Round-to-nearest-even at the format's precision with gradual underflow
and an unbounded upper exponent range; overflow to infinity is handled by
FloatFmt.ofRat below, as IEEE 754 prescribes (round as if the exponent were
unbounded, then overflow iff the result exceeds the largest finite value). -/
def roundF (fmt : FloatFmt) (q : ℚ) : ℚ :=
  if q = 0 then 0
  else (rne (q / pow2 (roundScale fmt q)) : ℚ) * pow2 (roundScale fmt q)

theorem two_zpow_natCast (k : ℕ) : (2 : ℚ) ^ (k : ℤ) = ((2 ^ k : ℕ) : ℚ) := by
  rw [zpow_natCast]
  push_cast
  ring

theorem roundF_zero (fmt : FloatFmt) : roundF fmt 0 = 0 := by
  unfold roundF
  rw [if_pos rfl]

theorem roundF_nonpos (fmt : FloatFmt) (q : ℚ) (hq : q < 0) : roundF fmt q ≤ 0 := by
  unfold roundF
  rw [if_neg (ne_of_lt hq), pow2_eq_zpow]
  have hs : (0 : ℚ) < 2 ^ roundScale fmt q := two_zpow_pos _
  have hx : q / 2 ^ roundScale fmt q < 0 := div_neg_of_neg_of_pos hq hs
  have := rne_nonpos _ hx
  have hc : ((rne (q / 2 ^ roundScale fmt q) : ℤ) : ℚ) ≤ 0 := by exact_mod_cast this
  exact mul_nonpos_of_nonpos_of_nonneg hc (le_of_lt hs)

theorem roundF_nonneg (fmt : FloatFmt) (q : ℚ) (hq : 0 ≤ q) : 0 ≤ roundF fmt q := by
  rcases eq_or_lt_of_le hq with h | h
  · rw [← h, roundF_zero]
  · unfold roundF
    rw [if_neg (ne_of_gt h), pow2_eq_zpow]
    have hs : (0 : ℚ) < 2 ^ roundScale fmt q := two_zpow_pos _
    have hx : 0 ≤ q / 2 ^ roundScale fmt q := le_of_lt (div_pos h hs)
    have := rne_nonneg _ hx
    have hc : (0 : ℚ) ≤ ((rne (q / 2 ^ roundScale fmt q) : ℤ) : ℚ) := by exact_mod_cast this
    exact mul_nonneg hc (le_of_lt hs)

theorem roundF_lower_half (fmt : FloatFmt) (q : ℚ) (hq : q ≠ 0) :
    q - (2 : ℚ) ^ roundScale fmt q / 2 ≤ roundF fmt q := by
  unfold roundF
  rw [if_neg hq, pow2_eq_zpow]
  have hs : (0 : ℚ) < 2 ^ roundScale fmt q := two_zpow_pos _
  have h1 := le_rne (q / 2 ^ roundScale fmt q)
  have h2 : (q / 2 ^ roundScale fmt q - 1 / 2) * 2 ^ roundScale fmt q ≤
      (rne (q / 2 ^ roundScale fmt q) : ℚ) * 2 ^ roundScale fmt q :=
    mul_le_mul_of_nonneg_right h1 (le_of_lt hs)
  calc q - (2 : ℚ) ^ roundScale fmt q / 2
      = (q / 2 ^ roundScale fmt q - 1 / 2) * 2 ^ roundScale fmt q := by
        field_simp
        ring
    _ ≤ _ := h2

theorem roundF_upper_half (fmt : FloatFmt) (q : ℚ) (hq : q ≠ 0) :
    roundF fmt q ≤ q + (2 : ℚ) ^ roundScale fmt q / 2 := by
  unfold roundF
  rw [if_neg hq, pow2_eq_zpow]
  have hs : (0 : ℚ) < 2 ^ roundScale fmt q := two_zpow_pos _
  have h1 := rne_le (q / 2 ^ roundScale fmt q)
  have h2 : (rne (q / 2 ^ roundScale fmt q) : ℚ) * 2 ^ roundScale fmt q ≤
      (q / 2 ^ roundScale fmt q + 1 / 2) * 2 ^ roundScale fmt q :=
    mul_le_mul_of_nonneg_right h1 (le_of_lt hs)
  calc (rne (q / 2 ^ roundScale fmt q) : ℚ) * 2 ^ roundScale fmt q
      ≤ (q / 2 ^ roundScale fmt q + 1 / 2) * 2 ^ roundScale fmt q := h2
    _ = q + (2 : ℚ) ^ roundScale fmt q / 2 := by
        field_simp
        ring

theorem roundScale_bound (fmt : FloatFmt) (q : ℚ) (hq : 0 < q)
    (hnorm : (2 : ℚ) ^ (fmt.eminLSB + (fmt.prec : ℤ) - 1) ≤ q) :
    (2 : ℚ) ^ roundScale fmt q ≤ q * (2 : ℚ) ^ (1 - (fmt.prec : ℤ)) := by
  have habs : |q| = q := abs_of_pos hq
  obtain ⟨hfl1, hfl2⟩ := ratFloorLog2_correct q (ne_of_gt hq)
  rw [habs] at hfl1 hfl2
  have hscale : roundScale fmt q = ratFloorLog2 q - ((fmt.prec : ℤ) - 1) := by
    unfold roundScale
    apply max_eq_left
    have hlt : (2 : ℚ) ^ (fmt.eminLSB + (fmt.prec : ℤ) - 1) < 2 ^ (ratFloorLog2 q + 1) :=
      lt_of_le_of_lt hnorm hfl2
    by_contra hcon
    push_neg at hcon
    have hle : ratFloorLog2 q + 1 ≤ fmt.eminLSB + (fmt.prec : ℤ) - 1 := by omega
    have := zpow_le_zpow_right₀ (by norm_num : (1 : ℚ) ≤ 2) hle
    linarith
  rw [hscale]
  have he : (2 : ℚ) ^ (ratFloorLog2 q - ((fmt.prec : ℤ) - 1)) =
      (2 : ℚ) ^ ratFloorLog2 q * (2 : ℚ) ^ (1 - (fmt.prec : ℤ)) := by
    rw [← zpow_add₀ (by norm_num : (2 : ℚ) ≠ 0)]
    congr 1
    ring
  rw [he]
  exact mul_le_mul_of_nonneg_right hfl1 (le_of_lt (two_zpow_pos _))

theorem roundF_lower (fmt : FloatFmt) (q : ℚ) (hq : 0 < q)
    (hnorm : (2 : ℚ) ^ (fmt.eminLSB + (fmt.prec : ℤ) - 1) ≤ q) :
    q * (1 - (2 : ℚ) ^ (-(fmt.prec : ℤ))) ≤ roundF fmt q := by
  have h1 := roundF_lower_half fmt q (ne_of_gt hq)
  have h2 := roundScale_bound fmt q hq hnorm
  have he : q * (2 : ℚ) ^ (1 - (fmt.prec : ℤ)) / 2 = q * (2 : ℚ) ^ (-(fmt.prec : ℤ)) := by
    have hsplit : (2 : ℚ) ^ (1 - (fmt.prec : ℤ)) = 2 * (2 : ℚ) ^ (-(fmt.prec : ℤ)) := by
      have harg : (1 : ℤ) - (fmt.prec : ℤ) = 1 + -(fmt.prec : ℤ) := by ring
      rw [harg, zpow_add₀ (by norm_num : (2 : ℚ) ≠ 0), zpow_one]
    rw [hsplit]
    ring
  have h3 : (2 : ℚ) ^ roundScale fmt q / 2 ≤ q * (2 : ℚ) ^ (-(fmt.prec : ℤ)) := by
    rw [← he]
    linarith
  calc q * (1 - (2 : ℚ) ^ (-(fmt.prec : ℤ)))
      = q - q * (2 : ℚ) ^ (-(fmt.prec : ℤ)) := by ring
    _ ≤ q - (2 : ℚ) ^ roundScale fmt q / 2 := by linarith
    _ ≤ roundF fmt q := h1

theorem roundF_natCast (fmt : FloatFmt) (he : fmt.eminLSB ≤ 0) (n : ℕ)
    (hn : n < 2 ^ fmt.prec) : roundF fmt (n : ℚ) = n := by
  rcases Nat.eq_zero_or_pos n with h0 | h1
  · subst h0
    norm_num [roundF_zero]
  · have hne : (n : ℚ) ≠ 0 := Nat.cast_ne_zero.mpr (by omega)
    have hpos : (0 : ℚ) < (n : ℚ) := by exact_mod_cast h1
    obtain ⟨hl1, hl2⟩ := log2N_correct n h1
    have hfl : ratFloorLog2 (n : ℚ) = (log2N n : ℤ) := by
      apply ratFloorLog2_unique _ hne
      · rw [abs_of_pos hpos, two_zpow_natCast]
        exact_mod_cast hl1
      · have harg : (log2N n : ℤ) + 1 = ((log2N n + 1 : ℕ) : ℤ) := by push_cast; ring
        rw [abs_of_pos hpos, harg, two_zpow_natCast]
        exact_mod_cast hl2
    have hplt : log2N n < fmt.prec := by
      by_contra hcon
      push_neg at hcon
      have : 2 ^ fmt.prec ≤ 2 ^ log2N n := Nat.pow_le_pow_right (by norm_num) hcon
      omega
    set s := roundScale fmt (n : ℚ) with hs
    have hs_le : s ≤ 0 := by
      rw [hs]
      unfold roundScale
      rw [hfl]
      apply max_le
      · omega
      · exact he
    set k := (-s).toNat with hkdef
    have hk : (k : ℤ) = -s := Int.toNat_of_nonneg (by omega)
    have hx : (n : ℚ) / (2 : ℚ) ^ s = ((n * 2 ^ k : ℕ) : ℚ) := by
      rw [div_eq_mul_inv, ← zpow_neg, ← hk, two_zpow_natCast]
      push_cast
      ring
    unfold roundF
    rw [if_neg hne, pow2_eq_zpow, ← hs, hx]
    have hrne : rne ((n * 2 ^ k : ℕ) : ℚ) = ((n * 2 ^ k : ℕ) : ℤ) := by
      have hcc : ((n * 2 ^ k : ℕ) : ℚ) = (((n * 2 ^ k : ℕ) : ℤ) : ℚ) := by push_cast; ring
      rw [hcc, rne_intCast]
    rw [hrne]
    have hone : (2 : ℚ) ^ (k : ℤ) * (2 : ℚ) ^ s = 1 := by
      rw [← zpow_add₀ (by norm_num : (2 : ℚ) ≠ 0)]
      rw [hk]
      have harg : -s + s = 0 := by ring
      rw [harg, zpow_zero]
    push_cast
    rw [← zpow_natCast (2 : ℚ) k]
    calc (n : ℚ) * (2 : ℚ) ^ (k : ℤ) * (2 : ℚ) ^ s
        = (n : ℚ) * ((2 : ℚ) ^ (k : ℤ) * (2 : ℚ) ^ s) := by ring
      _ = (n : ℚ) := by rw [hone, mul_one]

theorem roundF_fix_one_lt (fmt : FloatFmt) (hp : 2 ≤ fmt.prec)
    (he : fmt.eminLSB ≤ 1 - (fmt.prec : ℤ)) (q : ℚ)
    (hr : roundF fmt q = q) (h1 : 1 < q) :
    1 + (2 : ℚ) ^ (1 - (fmt.prec : ℤ)) ≤ q := by
  by_contra hcon
  push_neg at hcon
  set p := (fmt.prec : ℤ) with hpdef
  have hq0 : (0 : ℚ) < q := lt_trans one_pos h1
  have hqne : q ≠ 0 := ne_of_gt hq0
  have h2p : (2 : ℚ) ^ (1 - p) ≤ (2 : ℚ) ^ (-1 : ℤ) :=
    zpow_le_zpow_right₀ (by norm_num) (by omega)
  have h2pm : (2 : ℚ) ^ (-1 : ℤ) = 1 / 2 := by norm_num
  rw [h2pm] at h2p
  have hq2 : q < 2 := by linarith
  have hfl : ratFloorLog2 q = 0 := by
    apply ratFloorLog2_unique q hqne
    · rw [abs_of_pos hq0, zpow_zero]
      exact le_of_lt h1
    · rw [abs_of_pos hq0]
      norm_num
      exact hq2
  have hscale : roundScale fmt q = 1 - p := by
    unfold roundScale
    rw [hfl]
    have harg : (0 : ℤ) - (p - 1) = 1 - p := by ring
    rw [harg]
    exact max_eq_left he
  have hpow : (0 : ℚ) < (2 : ℚ) ^ (p - 1) := two_zpow_pos _
  have hprod : (2 : ℚ) ^ (1 - p) * (2 : ℚ) ^ (p - 1) = 1 := by
    rw [← zpow_add₀ (by norm_num : (2 : ℚ) ≠ 0)]
    have harg : 1 - p + (p - 1) = 0 := by ring
    rw [harg, zpow_zero]
  set x := q / (2 : ℚ) ^ (1 - p) with hxdef
  have hx_eq : x = q * (2 : ℚ) ^ (p - 1) := by
    rw [hxdef, div_eq_mul_inv, ← zpow_neg]
    have harg : -(1 - p) = p - 1 := by ring
    rw [harg]
  have hxlow : (2 : ℚ) ^ (p - 1) < x := by
    rw [hx_eq]
    nlinarith
  have hxupp : x < (2 : ℚ) ^ (p - 1) + 1 := by
    rw [hx_eq]
    have hmul : q * (2 : ℚ) ^ (p - 1) < (1 + (2 : ℚ) ^ (1 - p)) * (2 : ℚ) ^ (p - 1) :=
      mul_lt_mul_of_pos_right hcon hpow
    nlinarith
  have hcastP : (((2 ^ (fmt.prec - 1) : ℕ) : ℤ) : ℚ) = (2 : ℚ) ^ (p - 1) := by
    have harg : p - 1 = ((fmt.prec - 1 : ℕ) : ℤ) := by
      rw [hpdef]
      omega
    rw [harg, two_zpow_natCast]
    push_cast
    ring
  have hfloor : ⌊x⌋ = ((2 ^ (fmt.prec - 1) : ℕ) : ℤ) := by
    rw [Int.floor_eq_iff]
    constructor
    · rw [hcastP]
      exact le_of_lt hxlow
    · rw [hcastP]
      exact hxupp
  have hround : roundF fmt q = (rne x : ℚ) * (2 : ℚ) ^ (1 - p) := by
    unfold roundF
    rw [if_neg hqne, pow2_eq_zpow, hscale, ← hxdef]
  rcases rne_mem x with hm | hm
  · have hval : roundF fmt q = 1 := by
      rw [hround, hm, hfloor, hcastP]
      linear_combination hprod
    rw [hr] at hval
    linarith
  · have hval : roundF fmt q = 1 + (2 : ℚ) ^ (1 - p) := by
      rw [hround, hm, hfloor, Int.cast_add, Int.cast_one, hcastP]
      linear_combination hprod
    rw [hr] at hval
    linarith

/-! ### Floating-point data and the operations the source uses -/

/-- A floating-point datum: a finite value (the sign of zero is collapsed,
since no operation modelled here observes it), an infinity, or a NaN. -/
inductive FP where
  | finite (val : ℚ)
  | inf
  | neginf
  | nan
deriving DecidableEq

/-- Convert an exact rational result to a floating-point datum: round to
nearest-even, overflowing to the appropriately signed infinity when the
rounded value exceeds the largest finite value, as IEEE 754 prescribes for
roundTiesToEven. -/
def FloatFmt.ofRat (fmt : FloatFmt) (q : ℚ) : FP :=
  if fmt.maxFin < roundF fmt q then FP.inf
  else if roundF fmt q < -fmt.maxFin then FP.neginf
  else FP.finite (roundF fmt q)

/-- IEEE-754 multiplication: the exact product rounded, with the usual
special-value rules (NaN propagates, infinity times zero is NaN). -/
def fmul (fmt : FloatFmt) : FP → FP → FP
  | FP.nan, _ => FP.nan
  | _, FP.nan => FP.nan
  | FP.inf, FP.inf => FP.inf
  | FP.inf, FP.neginf => FP.neginf
  | FP.inf, FP.finite q => if 0 < q then FP.inf else if q < 0 then FP.neginf else FP.nan
  | FP.neginf, FP.inf => FP.neginf
  | FP.neginf, FP.neginf => FP.inf
  | FP.neginf, FP.finite q => if 0 < q then FP.neginf else if q < 0 then FP.inf else FP.nan
  | FP.finite q, FP.inf => if 0 < q then FP.inf else if q < 0 then FP.neginf else FP.nan
  | FP.finite q, FP.neginf => if 0 < q then FP.neginf else if q < 0 then FP.inf else FP.nan
  | FP.finite a, FP.finite b => fmt.ofRat (a * b)

/-- The Rust float-to-unsigned-integer cast (the saturating `as` operator):
truncate toward zero, clamp into [0, m], NaN and negative infinity to 0,
positive infinity to m. -/
def fcastU (m : ℕ) : FP → ℕ
  | FP.finite q => (min (if 0 ≤ q then ⌊q⌋ else ⌈q⌉) (m : ℤ)).toNat
  | FP.inf => m
  | FP.neginf => 0
  | FP.nan => 0

/-- The Rust unsigned-integer-to-float cast: round to nearest.  It is exact
for every u8 and u16 value in both formats. -/
def uToF (fmt : FloatFmt) (n : ℕ) : FP := fmt.ofRat (n : ℚ)

/-- A floating-point literal of the source text: the written decimal value
rounded to the format, which is the value the Rust compiler stores. -/
def flit (fmt : FloatFmt) (q : ℚ) : FP := fmt.ofRat q

/-- A floating-point datum is a value of the given format when its finite
payload is exactly representable: fixed by rounding and within range. -/
def FP.valid (fmt : FloatFmt) : FP → Prop
  | FP.finite q => roundF fmt q = q ∧ qabs q ≤ fmt.maxFin
  | FP.inf => True
  | FP.neginf => True
  | FP.nan => True

instance (fmt : FloatFmt) : ∀ f : FP, Decidable (FP.valid fmt f)
  | FP.finite q => inferInstanceAs (Decidable (roundF fmt q = q ∧ qabs q ≤ fmt.maxFin))
  | FP.inf => inferInstanceAs (Decidable True)
  | FP.neginf => inferInstanceAs (Decidable True)
  | FP.nan => inferInstanceAs (Decidable True)

/-- The Rust comparison f < c against an exactly representable constant c:
false on NaN. -/
def FP.ltq : FP → ℚ → Prop
  | FP.finite q, c => q < c
  | FP.inf, _ => False
  | FP.neginf, _ => True
  | FP.nan, _ => False

instance : ∀ (f : FP) (c : ℚ), Decidable (FP.ltq f c)
  | FP.finite q, c => inferInstanceAs (Decidable (q < c))
  | FP.inf, _ => inferInstanceAs (Decidable False)
  | FP.neginf, _ => inferInstanceAs (Decidable True)
  | FP.nan, _ => inferInstanceAs (Decidable False)

/-- The Rust comparison f > c against an exactly representable constant c:
false on NaN. -/
def FP.gtq : FP → ℚ → Prop
  | FP.finite q, c => c < q
  | FP.inf, _ => True
  | FP.neginf, _ => False
  | FP.nan, _ => False

instance : ∀ (f : FP) (c : ℚ), Decidable (FP.gtq f c)
  | FP.finite q, c => inferInstanceAs (Decidable (c < q))
  | FP.inf, _ => inferInstanceAs (Decidable True)
  | FP.neginf, _ => inferInstanceAs (Decidable False)
  | FP.nan, _ => inferInstanceAs (Decidable False)

theorem maxFin_nonneg (fmt : FloatFmt) : (0 : ℚ) ≤ fmt.maxFin := by
  unfold FloatFmt.maxFin
  apply mul_nonneg
  · exact Nat.cast_nonneg _
  · rw [pow2_eq_zpow]
    exact le_of_lt (two_zpow_pos _)

theorem ofRat_cast_nonpos (fmt : FloatFmt) (m : ℕ) (q : ℚ) (hq : q < 0) :
    fcastU m (fmt.ofRat q) = 0 := by
  have hr : roundF fmt q ≤ 0 := roundF_nonpos fmt q hq
  unfold FloatFmt.ofRat
  split_ifs with h1 h2
  · exact absurd (lt_of_lt_of_le h1 hr) (not_lt.mpr (maxFin_nonneg fmt))
  · rfl
  · show (min (if 0 ≤ roundF fmt q then ⌊roundF fmt q⌋ else ⌈roundF fmt q⌉) (m : ℤ)).toNat = 0
    by_cases h0 : 0 ≤ roundF fmt q
    · have hr0 : roundF fmt q = 0 := le_antisymm hr h0
      rw [if_pos h0, hr0]
      norm_num
    · rw [if_neg h0]
      have hc : ⌈roundF fmt q⌉ ≤ 0 := Int.ceil_le.mpr (by exact_mod_cast hr)
      have hmn : min ⌈roundF fmt q⌉ (m : ℤ) ≤ 0 := le_trans (min_le_left _ _) hc
      exact Int.toNat_eq_zero.mpr hmn

theorem ofRat_cast_of_max_lt (fmt : FloatFmt) (m : ℕ) (q : ℚ)
    (h : (m : ℚ) < roundF fmt q) : fcastU m (fmt.ofRat q) = m := by
  have hm0 : (0 : ℚ) ≤ (m : ℚ) := Nat.cast_nonneg m
  unfold FloatFmt.ofRat
  split_ifs with h1 h2
  · rfl
  · exfalso
    have := maxFin_nonneg fmt
    linarith
  · show (min (if 0 ≤ roundF fmt q then ⌊roundF fmt q⌋ else ⌈roundF fmt q⌉) (m : ℤ)).toNat = m
    rw [if_pos (by linarith)]
    have hfl : (m : ℤ) ≤ ⌊roundF fmt q⌋ := Int.le_floor.mpr (by exact_mod_cast le_of_lt h)
    rw [min_eq_right hfl]
    exact Int.toNat_natCast m

/-! ### Bitwise complement of w-bit naturals -/

theorem allones_xor (w : ℕ) : ∀ x, x < 2 ^ w → (2 ^ w - 1) ^^^ x = 2 ^ w - 1 - x := by
  induction w with
  | zero =>
    intro x hx
    interval_cases x
    rfl
  | succ w ih =>
    intro x hx
    have hd : Nat.div2 x < 2 ^ w := by
      rw [Nat.div2_val]
      rw [pow_succ] at hx
      omega
    have hbd := Nat.bodd_add_div2 x
    have h2 : (1 : ℕ) ≤ 2 ^ w := Nat.one_le_two_pow
    have h1 : (2 : ℕ) ^ (w + 1) - 1 = Nat.bit true (2 ^ w - 1) := by
      simp only [Nat.bit, cond_true]
      rw [pow_succ]
      omega
    conv_lhs => rw [h1, ← Nat.bit_decomp x]
    rw [Nat.xor_bit, ih _ hd]
    rw [Nat.div2_val] at hbd
    cases hb : Nat.bodd x
    · simp [hb] at hbd
      show Nat.bit true (2 ^ w - 1 - x.div2) = 2 ^ (w + 1) - 1 - x
      simp only [Nat.bit, cond_true, Nat.div2_val]
      rw [pow_succ]
      omega
    · simp [hb] at hbd
      show Nat.bit false (2 ^ w - 1 - x.div2) = 2 ^ (w + 1) - 1 - x
      simp only [Nat.bit, cond_false, Nat.div2_val]
      rw [pow_succ]
      omega

/-! ### The embedded library: FractionalU8 and FractionalU16 (src/lib.rs) -/

/-- The struct FractionalU8(u8) generated at src/lib.rs line 131 by the
fractional_int macro (struct declaration at line 4): the wrapped u8 is a
natural number, and theorems carry the u8 invariant raw ≤ 255. -/
structure FractionalU8 where
  raw : ℕ
deriving DecidableEq

/-- The struct FractionalU16(u16) generated at src/lib.rs line 132 by the
fractional_int macro; the u16 invariant is raw ≤ 65535. -/
structure FractionalU16 where
  raw : ℕ
deriving DecidableEq

namespace FractionalU8

/-- Macro line 10: const fn new wraps the raw integer verbatim. -/
def new (value : ℕ) : FractionalU8 := ⟨value⟩

/-- Macro line 7: the constant MAX = Self::new(u8::MAX). -/
def MAX : FractionalU8 := new 255

/-- The value produced by the derived Default (macro line 3): raw 0. -/
def default : FractionalU8 := ⟨0⟩

/-- Macro lines 15-18: new_f32 returns Self((value * MAX) as u8) in f32
arithmetic; the constant MAX: f32 = u8::MAX as f32 is the cast of 255. -/
def new_f32 (value : FP) : FractionalU8 :=
  ⟨fcastU 255 (fmul fmt32 value (uToF fmt32 255))⟩

/-- Macro lines 21-24: new_f64 returns Self((value * MAX) as u8) in f64
arithmetic. -/
def new_f64 (value : FP) : FractionalU8 :=
  ⟨fcastU 255 (fmul fmt64 value (uToF fmt64 255))⟩

/-- Macro lines 27-29: the raw accessor pub fn u8(self) -> u8. -/
def u8 (self : FractionalU8) : ℕ := self.raw

/-- Macro line 33: the constant MAX_INV: f32 = 1.0 / u8::MAX as f32; IEEE
division of the exact operands 1.0 and 255.0 rounds the exact quotient. -/
def MAX_INV_32 : FP := fmt32.ofRat (1 / 255)

/-- Macro lines 32-35: pub fn f32(self) = self.0 as f32 * MAX_INV. -/
def f32 (self : FractionalU8) : FP := fmul fmt32 (uToF fmt32 self.raw) MAX_INV_32

/-- Macro line 39: the constant MAX_INV: f64 = 1.0 / u8::MAX as f64. -/
def MAX_INV_64 : FP := fmt64.ofRat (1 / 255)

/-- Macro lines 38-41: pub fn f64(self) = self.0 as f64 * MAX_INV. -/
def f64 (self : FractionalU8) : FP := fmul fmt64 (uToF fmt64 self.raw) MAX_INV_64

/-- Macro lines 44-46: raw-integer max. -/
def max (self rhs : FractionalU8) : FractionalU8 := ⟨Nat.max self.raw rhs.raw⟩

/-- Macro lines 49-51: raw-integer min. -/
def min (self rhs : FractionalU8) : FractionalU8 := ⟨Nat.min self.raw rhs.raw⟩

/-- Macro lines 54-59: impl From<u8>, wrapping verbatim. -/
def fromRaw (value : ℕ) : FractionalU8 := ⟨value⟩

/-- Macro lines 61-67: impl Add, Self(self.0.saturating_add(rhs.0));
u8::saturating_add a b = min (a + b) 255 for in-range operands. -/
def add (self rhs : FractionalU8) : FractionalU8 := ⟨Nat.min (self.raw + rhs.raw) 255⟩

/-- Macro lines 69-75: impl Add<u8>, saturating against the raw scalar. -/
def addRaw (self : FractionalU8) (rhs : ℕ) : FractionalU8 := ⟨Nat.min (self.raw + rhs) 255⟩

/-- Macro lines 77-82: impl AddAssign; the receiver state after the call. -/
def addAssign (self rhs : FractionalU8) : FractionalU8 := ⟨Nat.min (self.raw + rhs.raw) 255⟩

/-- Macro lines 84-89: impl AddAssign<u8>; the receiver state after the call. -/
def addAssignRaw (self : FractionalU8) (rhs : ℕ) : FractionalU8 :=
  ⟨Nat.min (self.raw + rhs) 255⟩

/-- Macro lines 91-97: impl Sub, Self(self.0.saturating_sub(rhs.0));
truncated natural subtraction is exactly u8::saturating_sub. -/
def sub (self rhs : FractionalU8) : FractionalU8 := ⟨self.raw - rhs.raw⟩

/-- Macro lines 99-105: impl Sub<u8>, saturating against the raw scalar. -/
def subRaw (self : FractionalU8) (rhs : ℕ) : FractionalU8 := ⟨self.raw - rhs⟩

/-- Macro lines 107-112: impl SubAssign; the receiver state after the call. -/
def subAssign (self rhs : FractionalU8) : FractionalU8 := ⟨self.raw - rhs.raw⟩

/-- Macro lines 114-119: impl SubAssign<u8>; the receiver state after the call. -/
def subAssignRaw (self : FractionalU8) (rhs : ℕ) : FractionalU8 := ⟨self.raw - rhs⟩

/-- Macro lines 121-127: impl Not, Self::new(!self.0): bitwise complement of
the 8-bit raw value, that is, xor with the all-ones pattern 255. -/
def not (self : FractionalU8) : FractionalU8 := ⟨255 ^^^ self.raw⟩

end FractionalU8

namespace FractionalU16

/-- Macro line 10: const fn new wraps the raw integer verbatim. -/
def new (value : ℕ) : FractionalU16 := ⟨value⟩

/-- Macro line 7: the constant MAX = Self::new(u16::MAX). -/
def MAX : FractionalU16 := new 65535

/-- The value produced by the derived Default (macro line 3): raw 0. -/
def default : FractionalU16 := ⟨0⟩

/-- Macro lines 15-18: new_f32; the constant MAX: f32 = u16::MAX as f32 is
the cast of 65535, exact in binary32. -/
def new_f32 (value : FP) : FractionalU16 :=
  ⟨fcastU 65535 (fmul fmt32 value (uToF fmt32 65535))⟩

/-- Macro lines 21-24: new_f64. -/
def new_f64 (value : FP) : FractionalU16 :=
  ⟨fcastU 65535 (fmul fmt64 value (uToF fmt64 65535))⟩

/-- Macro lines 27-29: the raw accessor pub fn u16(self) -> u16. -/
def u16 (self : FractionalU16) : ℕ := self.raw

/-- Macro line 33: the constant MAX_INV: f32 = 1.0 / u16::MAX as f32. -/
def MAX_INV_32 : FP := fmt32.ofRat (1 / 65535)

/-- Macro lines 32-35: pub fn f32(self) = self.0 as f32 * MAX_INV. -/
def f32 (self : FractionalU16) : FP := fmul fmt32 (uToF fmt32 self.raw) MAX_INV_32

/-- Macro line 39: the constant MAX_INV: f64 = 1.0 / u16::MAX as f64. -/
def MAX_INV_64 : FP := fmt64.ofRat (1 / 65535)

/-- Macro lines 38-41: pub fn f64(self) = self.0 as f64 * MAX_INV. -/
def f64 (self : FractionalU16) : FP := fmul fmt64 (uToF fmt64 self.raw) MAX_INV_64

/-- Macro lines 44-46: raw-integer max. -/
def max (self rhs : FractionalU16) : FractionalU16 := ⟨Nat.max self.raw rhs.raw⟩

/-- Macro lines 49-51: raw-integer min. -/
def min (self rhs : FractionalU16) : FractionalU16 := ⟨Nat.min self.raw rhs.raw⟩

/-- Macro lines 54-59: impl From<u16>, wrapping verbatim. -/
def fromRaw (value : ℕ) : FractionalU16 := ⟨value⟩

/-- Macro lines 61-67: impl Add, Self(self.0.saturating_add(rhs.0));
u16::saturating_add a b = min (a + b) 65535 for in-range operands. -/
def add (self rhs : FractionalU16) : FractionalU16 :=
  ⟨Nat.min (self.raw + rhs.raw) 65535⟩

/-- Macro lines 69-75: impl Add<u16>, saturating against the raw scalar. -/
def addRaw (self : FractionalU16) (rhs : ℕ) : FractionalU16 :=
  ⟨Nat.min (self.raw + rhs) 65535⟩

/-- Macro lines 77-82: impl AddAssign; the receiver state after the call. -/
def addAssign (self rhs : FractionalU16) : FractionalU16 :=
  ⟨Nat.min (self.raw + rhs.raw) 65535⟩

/-- Macro lines 84-89: impl AddAssign<u16>; the receiver state after the call. -/
def addAssignRaw (self : FractionalU16) (rhs : ℕ) : FractionalU16 :=
  ⟨Nat.min (self.raw + rhs) 65535⟩

/-- Macro lines 91-97: impl Sub, Self(self.0.saturating_sub(rhs.0)). -/
def sub (self rhs : FractionalU16) : FractionalU16 := ⟨self.raw - rhs.raw⟩

/-- Macro lines 99-105: impl Sub<u16>, saturating against the raw scalar. -/
def subRaw (self : FractionalU16) (rhs : ℕ) : FractionalU16 := ⟨self.raw - rhs⟩

/-- Macro lines 107-112: impl SubAssign; the receiver state after the call. -/
def subAssign (self rhs : FractionalU16) : FractionalU16 := ⟨self.raw - rhs.raw⟩

/-- Macro lines 114-119: impl SubAssign<u16>; the receiver state after the call. -/
def subAssignRaw (self : FractionalU16) (rhs : ℕ) : FractionalU16 := ⟨self.raw - rhs⟩

/-- Macro lines 121-127: impl Not, Self::new(!self.0): bitwise complement of
the 16-bit raw value, that is, xor with the all-ones pattern 65535. -/
def not (self : FractionalU16) : FractionalU16 := ⟨65535 ^^^ self.raw⟩

end FractionalU16

/-- src/lib.rs lines 134-138: pub fn u16(self) -> FractionalU16 returns
FractionalU16::new(self.0 as u16 * 257); the u16 multiplication wraps on
overflow (mod 2^16), though for raw ≤ 255 it cannot overflow. -/
def FractionalU8.u16 (self : FractionalU8) : FractionalU16 :=
  FractionalU16.new (self.raw * 257 % 65536)

/-- src/lib.rs lines 140-144: pub fn u8(self) -> FractionalU8 returns
FractionalU8::new((self.0 / 257) as u8); the cast to u8 wraps (mod 2^8). -/
def FractionalU16.u8 (self : FractionalU16) : FractionalU8 :=
  FractionalU8.new (self.raw / 257 % 256)

/-- src/lib.rs lines 146-152: impl Mul for FractionalU8, with output
FractionalU16::new_f64(self.f64() * rhs.f64()). -/
def FractionalU8.mul (self rhs : FractionalU8) : FractionalU16 :=
  FractionalU16.new_f64 (fmul fmt64 self.f64 rhs.f64)

/-! ### Generic facts for the float-input clamping claims -/

theorem uToF_finite (fmt : FloatFmt) (n : ℕ) (he0 : fmt.eminLSB ≤ 0)
    (hn : n < 2 ^ fmt.prec) (hemax : 0 ≤ fmt.emaxLSB) :
    uToF fmt n = FP.finite (n : ℚ) := by
  unfold uToF FloatFmt.ofRat
  rw [roundF_natCast fmt he0 n hn]
  have hpow1 : (1 : ℚ) ≤ pow2 fmt.emaxLSB := by
    rw [pow2_eq_zpow]
    have := zpow_le_zpow_right₀ (by norm_num : (1 : ℚ) ≤ 2) hemax
    rw [zpow_zero] at this
    exact this
  have h1 : (n : ℚ) ≤ fmt.maxFin := by
    unfold FloatFmt.maxFin
    calc (n : ℚ) ≤ ((2 ^ fmt.prec - 1 : ℕ) : ℚ) := by
          exact_mod_cast (by omega : n ≤ 2 ^ fmt.prec - 1)
      _ ≤ ((2 ^ fmt.prec - 1 : ℕ) : ℚ) * pow2 fmt.emaxLSB :=
          le_mul_of_one_le_right (Nat.cast_nonneg _) hpow1
  have h2 : ¬ ((n : ℚ) < -fmt.maxFin) := by
    have := maxFin_nonneg fmt
    have hn0 : (0 : ℚ) ≤ (n : ℚ) := Nat.cast_nonneg n
    push_neg
    linarith
  rw [if_neg (not_lt.mpr h1), if_neg h2]

theorem fcast_mul_max_of_neg (fmt : FloatFmt) (M : ℕ) (hM : 1 ≤ M)
    (he0 : fmt.eminLSB ≤ 0) (hMfit : M < 2 ^ fmt.prec) (hemax : 0 ≤ fmt.emaxLSB)
    (v : FP) (hlt : FP.ltq v 0) :
    fcastU M (fmul fmt v (uToF fmt M)) = 0 := by
  rw [uToF_finite fmt M he0 hMfit hemax]
  have hMq : (0 : ℚ) < (M : ℚ) := by exact_mod_cast hM
  cases v with
  | nan => exact hlt.elim
  | inf => exact hlt.elim
  | neginf =>
    show fcastU M (if 0 < (M : ℚ) then FP.neginf else if (M : ℚ) < 0 then FP.inf
      else FP.nan) = 0
    rw [if_pos hMq]
    rfl
  | finite q =>
    have hq : q < 0 := hlt
    show fcastU M (fmt.ofRat (q * (M : ℚ))) = 0
    exact ofRat_cast_nonpos fmt M _ (mul_neg_of_neg_of_pos hq hMq)

theorem fcast_mul_max_of_gt_one (fmt : FloatFmt) (M : ℕ) (hM : 1 ≤ M)
    (hp : 2 ≤ fmt.prec) (he1 : fmt.eminLSB ≤ 1 - (fmt.prec : ℤ))
    (hMfit : M < 2 ^ fmt.prec) (hemax : 0 ≤ fmt.emaxLSB)
    (v : FP) (hv : FP.valid fmt v) (hgt : FP.gtq v 1) :
    fcastU M (fmul fmt v (uToF fmt M)) = M := by
  have he0 : fmt.eminLSB ≤ 0 := by omega
  rw [uToF_finite fmt M he0 hMfit hemax]
  have hMq : (1 : ℚ) ≤ (M : ℚ) := by exact_mod_cast hM
  have hMq0 : (0 : ℚ) < (M : ℚ) := by linarith
  cases v with
  | nan => exact hgt.elim
  | neginf => exact hgt.elim
  | inf =>
    show fcastU M (if 0 < (M : ℚ) then FP.inf else if (M : ℚ) < 0 then FP.neginf
      else FP.nan) = M
    rw [if_pos hMq0]
    rfl
  | finite q =>
    obtain ⟨hfix, hbound⟩ := hv
    have h1q : (1 : ℚ) < q := hgt
    have hgap : 1 + (2 : ℚ) ^ (1 - (fmt.prec : ℤ)) ≤ q :=
      roundF_fix_one_lt fmt hp he1 q hfix h1q
    show fcastU M (fmt.ofRat (q * (M : ℚ))) = M
    apply ofRat_cast_of_max_lt
    have hQpos : (0 : ℚ) < q * (M : ℚ) := mul_pos (by linarith) hMq0
    have hnorm : (2 : ℚ) ^ (fmt.eminLSB + (fmt.prec : ℤ) - 1) ≤ q * (M : ℚ) := by
      have hle : fmt.eminLSB + (fmt.prec : ℤ) - 1 ≤ 0 := by omega
      have hz := zpow_le_zpow_right₀ (by norm_num : (1 : ℚ) ≤ 2) hle
      rw [zpow_zero] at hz
      nlinarith
    have hlow := roundF_lower fmt (q * (M : ℚ)) hQpos hnorm
    set e := (2 : ℚ) ^ (-(fmt.prec : ℤ)) with hedef
    have hepos : (0 : ℚ) < e := two_zpow_pos _
    have h2e : (2 : ℚ) ^ (1 - (fmt.prec : ℤ)) = 2 * e := by
      rw [hedef]
      have harg : (1 : ℤ) - (fmt.prec : ℤ) = 1 + -(fmt.prec : ℤ) := by ring
      rw [harg, zpow_add₀ (by norm_num : (2 : ℚ) ≠ 0), zpow_one]
    have heb : e ≤ 1 / 4 := by
      have hz : (2 : ℚ) ^ (-(fmt.prec : ℤ)) ≤ (2 : ℚ) ^ (-2 : ℤ) :=
        zpow_le_zpow_right₀ (by norm_num) (by omega)
      have h4 : (2 : ℚ) ^ (-2 : ℤ) = 1 / 4 := by norm_num
      rw [h4] at hz
      rw [hedef]
      exact hz
    have hq2e : 1 + 2 * e ≤ q := by
      rw [h2e] at hgap
      exact hgap
    have hkey : (1 : ℚ) < (1 + 2 * e) * (1 - e) := by nlinarith
    have hstep1 : (M : ℚ) * (1 + 2 * e) ≤ (M : ℚ) * q :=
      mul_le_mul_of_nonneg_left hq2e (by linarith)
    have hstep2 : (M : ℚ) * (1 + 2 * e) * (1 - e) ≤ (M : ℚ) * q * (1 - e) :=
      mul_le_mul_of_nonneg_right hstep1 (by linarith)
    have hstep0 : (M : ℚ) < (M : ℚ) * ((1 + 2 * e) * (1 - e)) := by nlinarith
    have hcomm : (M : ℚ) * q * (1 - e) = q * (M : ℚ) * (1 - e) := by ring
    calc (M : ℚ) < (M : ℚ) * ((1 + 2 * e) * (1 - e)) := hstep0
      _ = (M : ℚ) * (1 + 2 * e) * (1 - e) := by ring
      _ ≤ (M : ℚ) * q * (1 - e) := hstep2
      _ = q * (M : ℚ) * (1 - e) := hcomm
      _ ≤ roundF fmt (q * (M : ℚ)) := hlow

/-! ### Extensionality helpers -/

theorem FractionalU8.eq_of_raw_eq {x y : FractionalU8} (h : x.raw = y.raw) : x = y := by
  cases x
  cases y
  exact congrArg FractionalU8.mk h

theorem FractionalU16.eq_of_raw_eq16 {x y : FractionalU16} (h : x.raw = y.raw) : x = y := by
  cases x
  cases y
  exact congrArg FractionalU16.mk h

/-! ### The claims -/

/-- Claim C1: for every 8-bit raw value x, narrowing the widening returns x,
narrow16to8(widen8to16(fromRaw x)).raw = x, and widening is exact at the
endpoints: raw 0 maps to raw 0 and raw 255 to raw 65535. -/
theorem C1_widen_narrow_roundtrip (x : ℕ) (hx : x ≤ 255) :
    ((FractionalU8.new x).u16).u8.raw = x ∧
    (FractionalU8.new 0).u16.raw = 0 ∧
    (FractionalU8.new 255).u16.raw = 65535 := by
  refine ⟨?_, by decide, by decide⟩
  show x * 257 % 65536 / 257 % 256 = x
  have h1 : x * 257 % 65536 = x * 257 := Nat.mod_eq_of_lt (by omega)
  rw [h1]
  have h2 : x * 257 / 257 = x := by omega
  rw [h2]
  omega

theorem C1_widen_narrow_roundtrip_witness :
    (7 : ℕ) ≤ 255 ∧ ((FractionalU8.new 7).u16).u8.raw = 7 :=
  ⟨by decide, (C1_widen_narrow_roundtrip 7 (by decide)).1⟩

/-- Claim C2: same-width addition is saturating_add, clamped to MAX(W) on
overflow and never wrapping, and subtraction is saturating_sub, clamped to 0
on underflow and never wrapping, for both widths; in particular MAX + 1 = MAX
and 0 - 1 = 0. -/
theorem C2_saturating_arithmetic (a b : FractionalU8) (c d : FractionalU16)
    (ha : a.raw ≤ 255) (hb : b.raw ≤ 255) (hc : c.raw ≤ 65535) (hd : d.raw ≤ 65535) :
    ((a.add b).raw = Nat.min (a.raw + b.raw) 255 ∧
      (a.raw + b.raw ≤ 255 → (a.add b).raw = a.raw + b.raw) ∧
      (255 < a.raw + b.raw → (a.add b).raw = 255) ∧
      (a.sub b).raw = a.raw - b.raw ∧
      (b.raw ≤ a.raw → (a.sub b).raw + b.raw = a.raw) ∧
      (a.raw < b.raw → (a.sub b).raw = 0)) ∧
    ((c.add d).raw = Nat.min (c.raw + d.raw) 65535 ∧
      (c.raw + d.raw ≤ 65535 → (c.add d).raw = c.raw + d.raw) ∧
      (65535 < c.raw + d.raw → (c.add d).raw = 65535) ∧
      (c.sub d).raw = c.raw - d.raw ∧
      (d.raw ≤ c.raw → (c.sub d).raw + d.raw = c.raw) ∧
      (c.raw < d.raw → (c.sub d).raw = 0)) ∧
    FractionalU8.MAX.add (FractionalU8.fromRaw 1) = FractionalU8.MAX ∧
    (FractionalU8.fromRaw 0).sub (FractionalU8.fromRaw 1) = FractionalU8.default ∧
    FractionalU16.MAX.add (FractionalU16.fromRaw 1) = FractionalU16.MAX ∧
    (FractionalU16.fromRaw 0).sub (FractionalU16.fromRaw 1) = FractionalU16.default := by
  refine ⟨⟨rfl, ?_, ?_, rfl, ?_, ?_⟩, ⟨rfl, ?_, ?_, rfl, ?_, ?_⟩,
    by decide, by decide, by decide, by decide⟩
  · intro h
    show Nat.min (a.raw + b.raw) 255 = a.raw + b.raw
    exact Nat.min_eq_left h
  · intro h
    show Nat.min (a.raw + b.raw) 255 = 255
    exact Nat.min_eq_right (by omega)
  · intro h
    show a.raw - b.raw + b.raw = a.raw
    omega
  · intro h
    show a.raw - b.raw = 0
    omega
  · intro h
    show Nat.min (c.raw + d.raw) 65535 = c.raw + d.raw
    exact Nat.min_eq_left h
  · intro h
    show Nat.min (c.raw + d.raw) 65535 = 65535
    exact Nat.min_eq_right (by omega)
  · intro h
    show c.raw - d.raw + d.raw = c.raw
    omega
  · intro h
    show c.raw - d.raw = 0
    omega

theorem C2_saturating_arithmetic_witness :
    ((FractionalU8.mk 3).add (FractionalU8.mk 5)).raw =
      Nat.min ((FractionalU8.mk 3).raw + (FractionalU8.mk 5).raw) 255 :=
  (C2_saturating_arithmetic ⟨3⟩ ⟨5⟩ ⟨7⟩ ⟨9⟩ (by decide) (by decide) (by decide)
    (by decide)).1.1

/-- Claim C3: inversion computes MAX(W) − raw, which is bit-identical to the
bitwise complement of raw; it is total and an involution, with
invert(255) = 0, invert(0) = 255 and invert(200) = 55 at width 8. -/
theorem C3_invert_involution (a : FractionalU8) (b : FractionalU16)
    (ha : a.raw ≤ 255) (hb : b.raw ≤ 65535) :
    a.not.raw = 255 - a.raw ∧
    b.not.raw = 65535 - b.raw ∧
    a.not.not = a ∧
    b.not.not = b ∧
    (FractionalU8.fromRaw 255).not.u8 = 0 ∧
    (FractionalU8.fromRaw 0).not.u8 = 255 ∧
    (FractionalU8.fromRaw 200).not.u8 = 55 := by
  have h8 := allones_xor 8 a.raw (by omega)
  have h16 := allones_xor 16 b.raw (by omega)
  norm_num at h8 h16
  refine ⟨h8, h16, ?_, ?_, by decide, by decide, by decide⟩
  · apply FractionalU8.eq_of_raw_eq
    show 255 ^^^ (255 ^^^ a.raw) = a.raw
    rw [Nat.xor_cancel_left]
  · apply FractionalU16.eq_of_raw_eq16
    show 65535 ^^^ (65535 ^^^ b.raw) = b.raw
    rw [Nat.xor_cancel_left]

theorem C3_invert_involution_witness :
    (FractionalU8.mk 200).not.raw = 255 - (FractionalU8.mk 200).raw ∧
    (FractionalU16.mk 40000).not.not = FractionalU16.mk 40000 :=
  ⟨(C3_invert_involution ⟨200⟩ ⟨40000⟩ (by decide) (by decide)).1,
   (C3_invert_involution ⟨200⟩ ⟨40000⟩ (by decide) (by decide)).2.2.2.1⟩

/-- Claim C9: in narrow16to8 the quotient raw16 / 257 never exceeds 255, so
the cast to u8 never truncates or wraps: the returned raw is exactly the
quotient. -/
theorem C9_narrow_cast_exact (y : ℕ) (hy : y ≤ 65535) :
    y / 257 ≤ 255 ∧ (FractionalU16.mk y).u8.raw = y / 257 := by
  constructor
  · omega
  · show y / 257 % 256 = y / 257
    omega

theorem C9_narrow_cast_exact_witness :
    (65535 : ℕ) ≤ 65535 ∧ (65535 / 257 ≤ 255 ∧
      (FractionalU16.mk 65535).u8.raw = 65535 / 257) :=
  ⟨by decide, C9_narrow_cast_exact 65535 (by decide)⟩

/-- Claim C10: raw 0 is a two-sided identity for the saturating addition and
a right identity for the saturating subtraction, and the saturating addition
is commutative, at both widths. -/
theorem C10_zero_identity_add_comm (a b : FractionalU8) (c d : FractionalU16)
    (ha : a.raw ≤ 255) (hc : c.raw ≤ 65535) :
    a.add FractionalU8.default = a ∧
    FractionalU8.default.add a = a ∧
    a.sub FractionalU8.default = a ∧
    a.add b = b.add a ∧
    c.add FractionalU16.default = c ∧
    FractionalU16.default.add c = c ∧
    c.sub FractionalU16.default = c ∧
    c.add d = d.add c := by
  refine ⟨FractionalU8.eq_of_raw_eq ?_, FractionalU8.eq_of_raw_eq ?_, FractionalU8.eq_of_raw_eq ?_,
    FractionalU8.eq_of_raw_eq ?_, FractionalU16.eq_of_raw_eq16 ?_, FractionalU16.eq_of_raw_eq16 ?_,
    FractionalU16.eq_of_raw_eq16 ?_, FractionalU16.eq_of_raw_eq16 ?_⟩
  · show Nat.min (a.raw + 0) 255 = a.raw
    rw [Nat.add_zero]
    exact Nat.min_eq_left ha
  · show Nat.min (0 + a.raw) 255 = a.raw
    rw [Nat.zero_add]
    exact Nat.min_eq_left ha
  · show a.raw - 0 = a.raw
    omega
  · show Nat.min (a.raw + b.raw) 255 = Nat.min (b.raw + a.raw) 255
    rw [Nat.add_comm]
  · show Nat.min (c.raw + 0) 65535 = c.raw
    rw [Nat.add_zero]
    exact Nat.min_eq_left hc
  · show Nat.min (0 + c.raw) 65535 = c.raw
    rw [Nat.zero_add]
    exact Nat.min_eq_left hc
  · show c.raw - 0 = c.raw
    omega
  · show Nat.min (c.raw + d.raw) 65535 = Nat.min (d.raw + c.raw) 65535
    rw [Nat.add_comm]

theorem C10_zero_identity_add_comm_witness :
    (FractionalU8.mk 17).add FractionalU8.default = FractionalU8.mk 17 :=
  (C10_zero_identity_add_comm ⟨17⟩ ⟨3⟩ ⟨9⟩ ⟨4⟩ (by decide) (by decide)).1

/-- Claim C5: fromFloat64 anchor points for both widths: 0.0 gives raw 0,
1.0 gives raw MAX(W), and 0.5 gives raw MAX(W) / 2 under integer division,
namely 127 at width 8 and 32767 at width 16. -/
theorem C5_new_f64_anchors :
    (FractionalU8.new_f64 (flit fmt64 0)).raw = 0 ∧
    (FractionalU16.new_f64 (flit fmt64 0)).raw = 0 ∧
    (FractionalU8.new_f64 (flit fmt64 1)).raw = 255 ∧
    (FractionalU16.new_f64 (flit fmt64 1)).raw = 65535 ∧
    (FractionalU8.new_f64 (flit fmt64 (1 / 2))).raw = 255 / 2 ∧
    (FractionalU16.new_f64 (flit fmt64 (1 / 2))).raw = 65535 / 2 ∧
    (255 : ℕ) / 2 = 127 ∧ (65535 : ℕ) / 2 = 32767 := by decide

/-- Claim C6: toFloat32 and toFloat64 return exactly 0.0 on defaultValue and
exactly 1.0 on maxValue, for both widths and both precisions. -/
theorem C6_float_exact_bounds :
    FractionalU8.default.f32 = FP.finite 0 ∧
    FractionalU8.default.f64 = FP.finite 0 ∧
    FractionalU16.default.f32 = FP.finite 0 ∧
    FractionalU16.default.f64 = FP.finite 0 ∧
    FractionalU8.MAX.f32 = FP.finite 1 ∧
    FractionalU8.MAX.f64 = FP.finite 1 ∧
    FractionalU16.MAX.f32 = FP.finite 1 ∧
    FractionalU16.MAX.f64 = FP.finite 1 := by decide

/-- Claim C8: the integer-operand overloads agree with the value-operand
operations through fromRaw, and the in-place compound variants leave the
receiver holding exactly what the corresponding pure operation returns. -/
theorem C8_overload_assign_agreement (a b : FractionalU8) (r : ℕ)
    (c d : FractionalU16) (s : ℕ) :
    a.addRaw r = a.add (FractionalU8.fromRaw r) ∧
    a.subRaw r = a.sub (FractionalU8.fromRaw r) ∧
    a.addAssign b = a.add b ∧
    a.subAssign b = a.sub b ∧
    a.addAssignRaw r = a.addRaw r ∧
    a.subAssignRaw r = a.subRaw r ∧
    c.addRaw s = c.add (FractionalU16.fromRaw s) ∧
    c.subRaw s = c.sub (FractionalU16.fromRaw s) ∧
    c.addAssign d = c.add d ∧
    c.subAssign d = c.sub d ∧
    c.addAssignRaw s = c.addRaw s ∧
    c.subAssignRaw s = c.subRaw s :=
  ⟨rfl, rfl, rfl, rfl, rfl, rfl, rfl, rfl, rfl, rfl, rfl, rfl⟩

/-- Claim C4: out-of-range float input is clamped and never wraps: every
valid float strictly below 0.0 is sent to defaultValue (raw 0) and every
valid float strictly above 1.0 to maxValue (raw MAX), by new_f32 and
new_f64 at both widths. -/
theorem C4_float_clamping (v : FP) :
    (FP.valid fmt32 v → FP.ltq v 0 →
      FractionalU8.new_f32 v = FractionalU8.default ∧
      FractionalU16.new_f32 v = FractionalU16.default) ∧
    (FP.valid fmt32 v → FP.gtq v 1 →
      FractionalU8.new_f32 v = FractionalU8.MAX ∧
      FractionalU16.new_f32 v = FractionalU16.MAX) ∧
    (FP.valid fmt64 v → FP.ltq v 0 →
      FractionalU8.new_f64 v = FractionalU8.default ∧
      FractionalU16.new_f64 v = FractionalU16.default) ∧
    (FP.valid fmt64 v → FP.gtq v 1 →
      FractionalU8.new_f64 v = FractionalU8.MAX ∧
      FractionalU16.new_f64 v = FractionalU16.MAX) := by
  refine ⟨fun _ hlt => ⟨?_, ?_⟩, fun hv hgt => ⟨?_, ?_⟩,
    fun _ hlt => ⟨?_, ?_⟩, fun hv hgt => ⟨?_, ?_⟩⟩
  · exact congrArg FractionalU8.mk
      (fcast_mul_max_of_neg fmt32 255 (by decide) (by decide) (by decide) (by decide) v hlt)
  · exact congrArg FractionalU16.mk
      (fcast_mul_max_of_neg fmt32 65535 (by decide) (by decide) (by decide) (by decide) v hlt)
  · exact congrArg FractionalU8.mk
      (fcast_mul_max_of_gt_one fmt32 255 (by decide) (by decide) (by decide) (by decide)
        (by decide) v hv hgt)
  · exact congrArg FractionalU16.mk
      (fcast_mul_max_of_gt_one fmt32 65535 (by decide) (by decide) (by decide) (by decide)
        (by decide) v hv hgt)
  · exact congrArg FractionalU8.mk
      (fcast_mul_max_of_neg fmt64 255 (by decide) (by decide) (by decide) (by decide) v hlt)
  · exact congrArg FractionalU16.mk
      (fcast_mul_max_of_neg fmt64 65535 (by decide) (by decide) (by decide) (by decide) v hlt)
  · exact congrArg FractionalU8.mk
      (fcast_mul_max_of_gt_one fmt64 255 (by decide) (by decide) (by decide) (by decide)
        (by decide) v hv hgt)
  · exact congrArg FractionalU16.mk
      (fcast_mul_max_of_gt_one fmt64 65535 (by decide) (by decide) (by decide) (by decide)
        (by decide) v hv hgt)

theorem C4_float_clamping_witness :
    (FractionalU8.new_f32 (FP.finite (-(1 / 2))) = FractionalU8.default ∧
      FractionalU16.new_f32 (FP.finite (-(1 / 2))) = FractionalU16.default) ∧
    (FractionalU8.new_f64 (FP.finite 2) = FractionalU8.MAX ∧
      FractionalU16.new_f64 (FP.finite 2) = FractionalU16.MAX) :=
  ⟨(C4_float_clamping (FP.finite (-(1 / 2)))).1 (by decide) (by decide),
   (C4_float_clamping (FP.finite 2)).2.2.2 (by decide) (by decide)⟩


/-- Claim C7: the cross-width multiply returns
fromFloat64(a.toFloat64() * b.toFloat64()); zero times zero is zero, a
zero-valued operand on either side yields a zero result, 1.0 times 1.0
yields float 1.0, and 0.5 times 0.5 yields the value of the f32 literal
0.24805 (raw 16255), not an exact 0.25. -/
theorem C7_mul_via_float (a b : FractionalU8) :
    a.mul b = FractionalU16.new_f64 (fmul fmt64 a.f64 b.f64) ∧
    (FractionalU8.new 0).mul (FractionalU8.new 0) = FractionalU16.new 0 ∧
    (FractionalU8.new 0).mul b = FractionalU16.new 0 ∧
    a.mul (FractionalU8.new 0) = FractionalU16.new 0 ∧
    ((FractionalU8.new 0).mul b).f64 = FP.finite 0 ∧
    (FractionalU8.new_f32 (flit fmt32 1)).mul (FractionalU8.new_f32 (flit fmt32 1)) =
      FractionalU16.new_f32 (flit fmt32 1) ∧
    ((FractionalU8.new_f32 (flit fmt32 1)).mul (FractionalU8.new_f32 (flit fmt32 1))).f64 =
      FP.finite 1 ∧
    (FractionalU8.new_f32 (flit fmt32 (1 / 2))).mul (FractionalU8.new_f32 (flit fmt32 (1 / 2)))
      = FractionalU16.new_f32 (flit fmt32 (24805 / 100000)) ∧
    ((FractionalU8.new_f32 (flit fmt32 (1 / 2))).mul
      (FractionalU8.new_f32 (flit fmt32 (1 / 2)))).raw = 16255 ∧
    ((FractionalU8.new_f32 (flit fmt32 (1 / 2))).mul
      (FractionalU8.new_f32 (flit fmt32 (1 / 2)))).f64 ≠ FP.finite (1 / 4) := by
  have hz : (FractionalU8.new 0).f64 = FP.finite 0 := by decide
  have hzero8 : ∀ y : FP, FractionalU16.new_f64 (fmul fmt64 (FP.finite 0) y) =
      FractionalU16.new 0 := by
    intro y
    cases y with
    | finite r =>
      have h1 : fmul fmt64 (FP.finite 0) (FP.finite r) = FP.finite 0 := by
        show fmt64.ofRat (0 * r) = FP.finite 0
        rw [zero_mul]
        decide
      rw [h1]
      decide
    | inf => decide
    | neginf => decide
    | nan => decide
  have hzero8r : ∀ y : FP, FractionalU16.new_f64 (fmul fmt64 y (FP.finite 0)) =
      FractionalU16.new 0 := by
    intro y
    cases y with
    | finite r =>
      have h1 : fmul fmt64 (FP.finite r) (FP.finite 0) = FP.finite 0 := by
        show fmt64.ofRat (r * 0) = FP.finite 0
        rw [mul_zero]
        decide
      rw [h1]
      decide
    | inf => decide
    | neginf => decide
    | nan => decide
  have hL : (FractionalU8.new 0).mul b = FractionalU16.new 0 := by
    show FractionalU16.new_f64 (fmul fmt64 (FractionalU8.new 0).f64 b.f64) =
      FractionalU16.new 0
    rw [hz]
    exact hzero8 b.f64
  have hR : a.mul (FractionalU8.new 0) = FractionalU16.new 0 := by
    show FractionalU16.new_f64 (fmul fmt64 a.f64 (FractionalU8.new 0).f64) =
      FractionalU16.new 0
    rw [hz]
    exact hzero8r a.f64
  have hA : FractionalU8.new_f32 (flit fmt32 1) = FractionalU8.mk 255 := by decide
  have hB : FractionalU8.new_f32 (flit fmt32 (1 / 2)) = FractionalU8.mk 127 := by decide
  have hC : FractionalU16.new_f32 (flit fmt32 1) = FractionalU16.mk 65535 := by decide
  have hD : FractionalU16.new_f32 (flit fmt32 (24805 / 100000)) = FractionalU16.mk 16255 := by
    decide
  have hM1 : (FractionalU8.mk 255).mul (FractionalU8.mk 255) = FractionalU16.mk 65535 := by
    decide
  have hM2 : (FractionalU8.mk 127).mul (FractionalU8.mk 127) = FractionalU16.mk 16255 := by
    decide
  have hF1 : (FractionalU16.mk 65535).f64 = FP.finite 1 := by decide
  have hF2 : (FractionalU16.mk 16255).f64 ≠ FP.finite (1 / 4) := by decide
  have hZ0 : (FractionalU8.new 0).mul (FractionalU8.new 0) = FractionalU16.new 0 := by
    show FractionalU16.new_f64 (fmul fmt64 (FractionalU8.new 0).f64
      (FractionalU8.new 0).f64) = FractionalU16.new 0
    rw [hz]
    exact hzero8 _
  refine ⟨rfl, hZ0, hL, hR, ?_, ?_, ?_, ?_, ?_, ?_⟩
  · rw [hL]
    decide
  · rw [hA, hM1, hC]
  · rw [hA, hM1, hF1]
  · rw [hB, hM2, hD]
  · rw [hB, hM2]
  · rw [hB, hM2]
    exact hF2
